import Mathlib

/-!
Shallow embedding of the marketplace resolution and caching pipeline of the
vscode-agent-plugins extension (src/features/marketplace.ts and
src/features/cache.ts), with theorems checking the specification claims about
candidate URL generation, resolution, manifest normalization, aggregation and
the stale-while-revalidate cache.

Strings are modelled through their character lists so that every operation is
structurally recursive and kernel-reducible.  Network activity is modelled by
passing the outcome each HTTP request would produce as an explicit argument.
-/

namespace AgentPlugins

/-- Whitespace test used by the model of the string trim operation. -/
def isWsChar (c : Char) : Bool :=
  (c == ' ') || (c == '\t') || (c == '\n') || (c == '\r')

/-- Model of the string trim operation: drop whitespace from both ends. -/
def trimStr (s : String) : String :=
  String.mk (((s.data.dropWhile isWsChar).reverse.dropWhile isWsChar).reverse)

/-- Model of the toLowerCase string operation (ASCII letters). -/
def lowerStr (s : String) : String :=
  String.mk (s.data.map Char.toLower)

/-- Tests whether the string s ends with the given suffix. -/
def endsWithStr (sfx s : String) : Bool :=
  sfx.data.isSuffixOf s.data

/-- Tests whether the string s starts with the given leading part. -/
def startsWithStr (pre s : String) : Bool :=
  pre.data.isPrefixOf s.data

/-- Splits a character list on a separator character, keeping empty pieces,
as the JavaScript split method does. -/
def splitCharAux (sep : Char) : List Char → List Char → List String
  | [], acc => [String.mk acc.reverse]
  | c :: rest, acc =>
    if c == sep then String.mk acc.reverse :: splitCharAux sep rest []
    else splitCharAux sep rest (c :: acc)

/-- Splits a string on a separator character. -/
def splitChar (sep : Char) (s : String) : List String :=
  splitCharAux sep s.data []

/-- Joins a list of strings with slashes, modelling the join method. -/
def joinSlash : List String → String
  | [] => ""
  | [x] => x
  | x :: xs => x ++ "/" ++ joinSlash xs

/-- ASCII letter test for scheme validation in the URL parser model. -/
def isAlphaChar (c : Char) : Bool :=
  (('a' ≤ c) && (c ≤ 'z')) || (('A' ≤ c) && (c ≤ 'Z'))

/-- ASCII letter-or-digit test, used by the file-extension regular expression
model (the regex has the case-insensitive flag). -/
def isExtChar (c : Char) : Bool :=
  (('a' ≤ c) && (c ≤ 'z')) || (('A' ≤ c) && (c ≤ 'Z')) || (('0' ≤ c) && (c ≤ '9'))

/-- The parsed components of an absolute URL that the marketplace code reads
from the platform URL object. -/
structure ParsedUrl where
  protocol : String
  hostname : String
  pathname : String
  origin : String
deriving DecidableEq

/-- Finds the first occurrence of the scheme separator, returning the scheme
characters and the characters after the two slashes. -/
def breakOnScheme : List Char → Option (List Char × List Char)
  | [] => none
  | c :: rest =>
    if c == ':' then
      match rest with
      | '/' :: '/' :: tail => some ([], tail)
      | _ => none
    else
      match breakOnScheme rest with
      | some (sch, tail) => some (c :: sch, tail)
      | none => none

/-- Model of the platform URL constructor for absolute hierarchical URLs
without userinfo or port (none of the URLs handled by the extension carry
either); the scheme and host are lowercased as the URL standard requires, an
empty path becomes a single slash, and query or fragment parts are cut off.
Returns none where the platform constructor would throw. -/
def parseUrl (s : String) : Option ParsedUrl :=
  match breakOnScheme s.data with
  | none => none
  | some (sch, rest) =>
    if sch.isEmpty || !sch.all isAlphaChar then none
    else
      let host := rest.takeWhile (fun c => !(c == '/') && !(c == '?') && !(c == '#') && !(c == ':'))
      if host.isEmpty then none
      else
        let afterHost := rest.drop host.length
        if afterHost.head? == some ':' then none
        else
          let pathChars := afterHost.takeWhile (fun c => !(c == '?') && !(c == '#'))
          let path := if pathChars.isEmpty then ['/'] else pathChars
          let protoStr := String.mk (sch.map Char.toLower) ++ ":"
          let hostStr := String.mk (host.map Char.toLower)
          some { protocol := protoStr, hostname := hostStr, pathname := String.mk path,
                 origin := protoStr ++ "//" ++ hostStr }

/-- Appends a string to the list when it is not already present, modelling
insertion into a JavaScript Set (which keeps insertion order). -/
def pushUnique (xs : List String) (x : String) : List String :=
  if x ∈ xs then xs else xs ++ [x]

/-- Collects a list of strings through a Set, keeping first occurrences. -/
def dedupCandidates (xs : List String) : List String :=
  xs.foldl pushUnique []

/-- Model of the regular expression that strips a trailing .git (with the
case-insensitive flag) from a repository segment. -/
def stripDotGit (repo : String) : String :=
  if endsWithStr ".git" (lowerStr repo) then
    String.mk (repo.data.take (repo.data.length - 4))
  else repo

/-- Splits a pathname on slashes and drops empty segments, modelling
pathname.split followed by the truthiness filter. -/
def splitPathSegments (pathname : String) : List String :=
  (splitChar '/' pathname).filter (fun s => !s.isEmpty)

/-- Model of the regular expression testing for a trailing file extension:
a dot followed by one or more ASCII letters or digits at the end. -/
def hasFileNameExt (pathname : String) : Bool :=
  let rcs := pathname.data.reverse
  let run := rcs.takeWhile isExtChar
  !run.isEmpty && ((rcs.drop run.length).head? == some '.')

/-- Raw-content base URL for an owner and repository, with trailing slash. -/
def rawBase (owner repo : String) : String :=
  "https://raw.githubusercontent.com/" ++ owner ++ "/" ++ repo ++ "/"

/-- The four convention candidates for a repository slug: the two manifest
locations crossed with the two default branch names, in source order. -/
def conventionCandidates (owner repo : String) : List String :=
  [rawBase owner repo ++ "main/.claude-plugin/marketplace.json",
   rawBase owner repo ++ "master/.claude-plugin/marketplace.json",
   rawBase owner repo ++ "main/.github/plugin/marketplace.json",
   rawBase owner repo ++ "master/.github/plugin/marketplace.json"]

/-- Embedding of candidateMarketplaceUrls from src/features/marketplace.ts:
turns one input URL into the ordered list of manifest URLs to probe. -/
def candidateMarketplaceUrls (inputUrl : String) : List String :=
  match parseUrl inputUrl with
  | none => dedupCandidates [inputUrl]
  | some parsed =>
    if !(lowerStr parsed.protocol == "http:" || lowerStr parsed.protocol == "https:") then
      dedupCandidates [inputUrl]
    else
      let hostname := lowerStr parsed.hostname
      let genericCandidates : List String :=
        let hasFileName := hasFileNameExt parsed.pathname
        if !hasFileName && !endsWithStr "/marketplace.json" parsed.pathname then
          let pathname :=
            if endsWithStr "/" parsed.pathname then parsed.pathname else parsed.pathname ++ "/"
          dedupCandidates [inputUrl,
            parsed.origin ++ pathname ++ ".claude-plugin/marketplace.json",
            parsed.origin ++ pathname ++ ".github/plugin/marketplace.json"]
        else dedupCandidates [inputUrl]
      if hostname == "github.com" || hostname == "www.github.com" then
        match splitPathSegments parsed.pathname with
        | owner :: repoRaw :: rest =>
          let repo := stripDotGit repoRaw
          match rest with
          | maybeBlob :: branch :: r1 :: rs =>
            if maybeBlob == "blob" then
              dedupCandidates
                [rawBase owner repo ++ branch ++ "/" ++ joinSlash (r1 :: rs)]
            else
              dedupCandidates (conventionCandidates owner repo)
          | _ => dedupCandidates (conventionCandidates owner repo)
        | _ => genericCandidates
      else genericCandidates

/-- C1: for the input URL https://github.com/acme/skills (a recognized
repository host with exactly owner and repo segments and no blob reference)
the candidate generator returns exactly four candidates, in this order:
main/.claude-plugin, master/.claude-plugin, main/.github/plugin,
master/.github/plugin. -/
theorem C1_candidate_urls :
    candidateMarketplaceUrls "https://github.com/acme/skills" =
      ["https://raw.githubusercontent.com/acme/skills/main/.claude-plugin/marketplace.json",
       "https://raw.githubusercontent.com/acme/skills/master/.claude-plugin/marketplace.json",
       "https://raw.githubusercontent.com/acme/skills/main/.github/plugin/marketplace.json",
       "https://raw.githubusercontent.com/acme/skills/master/.github/plugin/marketplace.json"] := by
  decide

/-- Outcome of one HTTP GET as the resolver observes it: either a response
with a status code, or a thrown network error with a message. -/
inductive FetchOutcome where
  | response (status : Nat)
  | thrown (message : String)
deriving DecidableEq

/-- Model of the ok flag on a fetch response: status in the 2xx range. -/
def responseOk (status : Nat) : Bool :=
  decide (200 ≤ status ∧ status ≤ 299)

/-- True when the outcome is a 2xx response. -/
def isOkOutcome : FetchOutcome → Bool
  | .response s => responseOk s
  | .thrown _ => false

/-- The structured result returned by resolveMarketplaceUrl. -/
structure UrlResolution where
  documentUrl : Option String
  warnings : List String
  errors : List String
deriving DecidableEq

/-- The warning string recorded for one failed candidate. -/
def candidateWarning (c : String) : FetchOutcome → String
  | .response s => "Marketplace candidate failed (" ++ toString s ++ "): " ++ c
  | .thrown m => "Marketplace candidate unreachable: " ++ c ++ " (" ++ m ++ ")"

/-- The single error synthesized when every candidate fails. -/
def resolveFailError (inputUrl : String) : String :=
  "Could not resolve marketplace document from \x27" ++ inputUrl ++ "\x27."

/-- The candidate-probing loop of resolveMarketplaceUrl: candidates are tried
in order, the first 2xx response wins (returning empty warnings), non-2xx
responses and thrown errors append a warning and continue. -/
def resolveLoop (fetchO : String → FetchOutcome) (inputUrl : String) :
    List String → List String → UrlResolution
  | [], warnings => ⟨none, warnings, [resolveFailError inputUrl]⟩
  | c :: rest, warnings =>
    match fetchO c with
    | .response s =>
      if responseOk s then ⟨some c, [], []⟩
      else resolveLoop fetchO inputUrl rest (warnings ++ [candidateWarning c (.response s)])
    | .thrown m =>
      resolveLoop fetchO inputUrl rest (warnings ++ [candidateWarning c (.thrown m)])

/-- Embedding of resolveMarketplaceUrl from src/features/marketplace.ts, with
the network modelled by the fetch oracle argument. -/
def resolveMarketplaceUrl (fetchO : String → FetchOutcome) (inputUrl : String) : UrlResolution :=
  resolveLoop fetchO inputUrl (candidateMarketplaceUrls inputUrl) []

theorem find?_cons_eq {α : Type} (p : α → Bool) (a : α) (l : List α) :
    List.find? p (a :: l) = if p a then some a else List.find? p l := by
  by_cases h : p a = true
  · rw [List.find?_cons_of_pos _ h, if_pos h]
  · rw [List.find?_cons_of_neg _ h, if_neg h]

theorem resolveLoop_spec (fetchO : String → FetchOutcome) (inputUrl : String) :
    ∀ (cands : List String) (acc : List String),
      (∀ c, cands.find? (fun x => isOkOutcome (fetchO x)) = some c →
        resolveLoop fetchO inputUrl cands acc = ⟨some c, [], []⟩) ∧
      (cands.find? (fun x => isOkOutcome (fetchO x)) = none →
        resolveLoop fetchO inputUrl cands acc =
          ⟨none, acc ++ cands.map (fun x => candidateWarning x (fetchO x)),
           [resolveFailError inputUrl]⟩) := by
  intro cands
  induction cands with
  | nil =>
    intro acc
    refine ⟨fun c h => by simp at h, fun _ => by simp [resolveLoop]⟩
  | cons x rest ih =>
    intro acc
    constructor
    · intro c h
      rw [find?_cons_eq] at h
      cases hfx : fetchO x with
      | response s =>
        by_cases hok : responseOk s = true
        · have hpred : isOkOutcome (fetchO x) = true := by simp [isOkOutcome, hfx, hok]
          rw [if_pos hpred] at h
          have hc : x = c := by simpa using h
          subst hc
          simp [resolveLoop, hfx, hok]
        · have hpred : ¬ isOkOutcome (fetchO x) = true := by simp [isOkOutcome, hfx, hok]
          rw [if_neg hpred] at h
          have := (ih (acc ++ [candidateWarning x (.response s)])).1 c h
          simp only [resolveLoop, hfx]
          rw [if_neg hok]
          exact this
      | thrown m =>
        have hpred : ¬ isOkOutcome (fetchO x) = true := by simp [isOkOutcome, hfx]
        rw [if_neg hpred] at h
        have := (ih (acc ++ [candidateWarning x (.thrown m)])).1 c h
        simp only [resolveLoop, hfx]
        exact this
    · intro h
      rw [find?_cons_eq] at h
      cases hfx : fetchO x with
      | response s =>
        by_cases hok : responseOk s = true
        · have hpred : isOkOutcome (fetchO x) = true := by simp [isOkOutcome, hfx, hok]
          rw [if_pos hpred] at h
          exact absurd h (by simp)
        · have hpred : ¬ isOkOutcome (fetchO x) = true := by simp [isOkOutcome, hfx, hok]
          rw [if_neg hpred] at h
          have := (ih (acc ++ [candidateWarning x (.response s)])).2 h
          simp only [resolveLoop, hfx]
          rw [if_neg hok, this]
          simp [hfx]
      | thrown m =>
        have hpred : ¬ isOkOutcome (fetchO x) = true := by simp [isOkOutcome, hfx]
        rw [if_neg hpred] at h
        have := (ih (acc ++ [candidateWarning x (.thrown m)])).2 h
        simp only [resolveLoop, hfx]
        rw [this]
        simp [hfx]

/-- C2 counterexample: probing https://github.com/acme/skills with an oracle
on which the first candidate fails with a 404 and the second succeeds, the
resolver returns the second candidate as the document URL but an empty
warnings list, so the failure of the first candidate is not recorded in the
returned result, contrary to the claim. -/
theorem C2_resolution_counterexample :
    (candidateMarketplaceUrls "https://github.com/acme/skills").head? =
      some "https://raw.githubusercontent.com/acme/skills/main/.claude-plugin/marketplace.json" ∧
    responseOk 404 = false ∧
    resolveMarketplaceUrl
      (fun c =>
        if c = "https://raw.githubusercontent.com/acme/skills/main/.claude-plugin/marketplace.json"
        then FetchOutcome.response 404 else FetchOutcome.response 200)
      "https://github.com/acme/skills" =
      ⟨some "https://raw.githubusercontent.com/acme/skills/master/.claude-plugin/marketplace.json",
       [], []⟩ := by
  refine ⟨by decide, by decide, by decide⟩

/-- C2 amended: candidates are tried strictly in order and the first 2xx
response wins, becoming the document URL, but the warnings accumulated from
candidates that failed earlier are discarded on success (the returned result
has an empty warnings list); if every candidate fails, the result has no
document URL, exactly one warning per failed candidate in probing order, and
exactly one error naming the original input; no exception propagates. -/
theorem C2_resolution (fetchO : String → FetchOutcome) (inputUrl : String) :
    (∀ c, (candidateMarketplaceUrls inputUrl).find? (fun x => isOkOutcome (fetchO x)) = some c →
      resolveMarketplaceUrl fetchO inputUrl = ⟨some c, [], []⟩) ∧
    ((candidateMarketplaceUrls inputUrl).find? (fun x => isOkOutcome (fetchO x)) = none →
      resolveMarketplaceUrl fetchO inputUrl =
        ⟨none, (candidateMarketplaceUrls inputUrl).map (fun x => candidateWarning x (fetchO x)),
         [resolveFailError inputUrl]⟩) := by
  have h := resolveLoop_spec fetchO inputUrl (candidateMarketplaceUrls inputUrl) []
  refine ⟨fun c hc => h.1 c hc, fun hn => ?_⟩
  have := h.2 hn
  simpa [resolveMarketplaceUrl] using this

/-- C2 witness: a concrete oracle on which every candidate fails, showing the
total-failure clause of the amended resolution theorem at a concrete input. -/
theorem C2_resolution_witness :
    (candidateMarketplaceUrls "notaurl").find?
      (fun x => isOkOutcome ((fun _ => FetchOutcome.thrown "refused") x)) = none ∧
    resolveMarketplaceUrl (fun _ => FetchOutcome.thrown "refused") "notaurl" =
      ⟨none, ["Marketplace candidate unreachable: notaurl (refused)"],
       ["Could not resolve marketplace document from \x27notaurl\x27."]⟩ := by
  refine ⟨by decide, ?_⟩
  have h := (C2_resolution (fun _ => FetchOutcome.thrown "refused") "notaurl").2 (by decide)
  rw [h]
  decide

/-- Decoded JSON values, as the manifest normalizer receives them. -/
inductive Json where
  | null
  | bool (b : Bool)
  | num (n : Int)
  | str (s : String)
  | arr (elems : List Json)
  | obj (fields : List (String × Json))

/-- Embedding of asRecord: only a plain object yields a record (arrays and
null are excluded by the source checks). -/
def asRecord : Json → Option (List (String × Json))
  | .obj fields => some fields
  | _ => none

/-- Field lookup on a record, modelling property access on a plain object
(absent key gives undefined, modelled as none). -/
def jGet (fields : List (String × Json)) (key : String) : Option Json :=
  (fields.find? (fun p => p.1 == key)).map (fun p => p.2)

/-- Embedding of asString: strings only, trimmed, empty trimmed values are
rejected. -/
def asString : Json → Option String
  | .str s =>
    let normalized := trimStr s
    if normalized.data.isEmpty then none else some normalized
  | _ => none

/-- Field access followed by asString, as the source writes asString of a
record field (an absent field behaves like a non-string). -/
def getStr (fields : List (String × Json)) (key : String) : Option String :=
  (jGet fields key).bind asString

/-- Embedding of normalizeRelativePath: strips one leading dot-slash, then
one leading slash. -/
def normalizeRelativePath (v : String) : String :=
  let v1 := if startsWithStr "./" v then String.mk (v.data.drop 2) else v
  if startsWithStr "/" v1 then String.mk (v1.data.drop 1) else v1

/-- Embedding of isHttpUrl: the case-insensitive http or https scheme test. -/
def isHttpUrl (v : String) : Bool :=
  startsWithStr "http://" (lowerStr v) || startsWithStr "https://" (lowerStr v)

/-- Repository context derived from a resolved raw-content document URL. -/
structure RepoContext where
  owner : String
  repo : String
  branch : String
  rawBaseUrl : String
  blobBaseUrl : String
deriving DecidableEq

/-- One leaf content unit inside a group. -/
structure MarketplaceGroupItem where
  name : String
  path : Option String := none
  metadataUrl : Option String := none
  metadataFallbackUrls : List String
  docUrl : Option String := none
  description : Option String := none
deriving DecidableEq

/-- One category of content of a plugin. -/
structure MarketplacePluginGroup where
  name : String
  key : String
  items : List MarketplaceGroupItem
deriving DecidableEq

/-- One installable unit produced by the normalizer. -/
structure MarketplacePlugin where
  id : String
  name : String
  description : Option String
  version : String
  downloadUrl : Option String
  groups : List MarketplacePluginGroup
  sourceUrl : String
  marketplaceDocumentUrl : String
  raw : List (String × Json)

/-- The structured result of fetching and normalizing one marketplace. -/
structure MarketplaceFetchResult where
  plugins : List MarketplacePlugin
  warnings : List String
  errors : List String

/-- Embedding of descriptorDefaultsForGroup: the descriptor-file convention
per content category. -/
def descriptorDefaultsForGroup (groupKey : String) : List String :=
  if groupKey == "skills" then ["SKILL.md", "README.md"]
  else if groupKey == "agents" then ["AGENT.md", "AGENTS.md", "README.md"]
  else ["README.md"]

/-- Embedding of summaryFromRecord: name, id, slug, title, in that order. -/
def summaryFromRecord (record : List (String × Json)) : Option String :=
  getStr record "name" <|> getStr record "id" <|> getStr record "slug" <|> getStr record "title"

/-- Embedding of buildItemFromPath: derives an item from a path for a group,
using the repository context when present. -/
def buildItemFromPath (pathValue groupKey : String) (repoContext : Option RepoContext) :
    MarketplaceGroupItem :=
  let cleanedPath := normalizeRelativePath pathValue
  let descriptorFiles := descriptorDefaultsForGroup groupKey
  match repoContext with
  | none =>
    { name := cleanedPath, path := some cleanedPath,
      metadataUrl := if isHttpUrl cleanedPath then some cleanedPath else none,
      metadataFallbackUrls := [],
      docUrl := if isHttpUrl cleanedPath then some cleanedPath else none }
  | some rc =>
    if isHttpUrl cleanedPath then
      { name := cleanedPath, path := some cleanedPath,
        metadataUrl := some cleanedPath, metadataFallbackUrls := [],
        docUrl := some cleanedPath }
    else if endsWithStr ".md" (lowerStr cleanedPath) then
      { name := cleanedPath, path := some cleanedPath,
        metadataUrl := some (rc.rawBaseUrl ++ "/" ++ cleanedPath),
        metadataFallbackUrls := [],
        docUrl := some (rc.blobBaseUrl ++ "/" ++ cleanedPath) }
    else
      let metadataCandidates :=
        descriptorFiles.map (fun fileName => rc.rawBaseUrl ++ "/" ++ cleanedPath ++ "/" ++ fileName)
      { name := cleanedPath, path := some cleanedPath,
        metadataUrl := metadataCandidates.head?,
        metadataFallbackUrls := metadataCandidates.tail,
        docUrl := some (rc.blobBaseUrl ++ "/" ++ cleanedPath ++ "/" ++ descriptorFiles.headD "") }

/-- Embedding of buildGroupItem: a string entry becomes a path item, a record
with a path, source or url field becomes a path item with overrides, a record
with only a summary becomes a label-only item, anything else is rejected. -/
def buildGroupItem (entry : Json) (groupKey : String) (rc : Option RepoContext) :
    Option MarketplaceGroupItem :=
  match entry with
  | .str s => some (buildItemFromPath s groupKey rc)
  | _ =>
    match asRecord entry with
    | none => none
    | some record =>
      match getStr record "path" <|> getStr record "source" <|> getStr record "url" with
      | some pathValue =>
        let base := buildItemFromPath pathValue groupKey rc
        some { base with
               name := (summaryFromRecord record).getD base.name,
               description := getStr record "description" <|> base.description }
      | none =>
        match summaryFromRecord record with
        | none => none
        | some name =>
          some { name := name, path := none, metadataUrl := none,
                 metadataFallbackUrls := [], docUrl := none,
                 description := getStr record "description" }

/-- Embedding of toGroupItems: arrays map entries through buildGroupItem, a
record maps each field, falling back to a bare item named after the key. -/
def toGroupItems (value : Json) (groupKey : String) (rc : Option RepoContext) :
    List MarketplaceGroupItem :=
  match value with
  | .arr elems => elems.filterMap (fun e => buildGroupItem e groupKey rc)
  | _ =>
    match asRecord value with
    | none => []
    | some record =>
      record.map (fun kv =>
        (buildGroupItem kv.2 groupKey rc).getD
          { name := kv.1, path := none, metadataUrl := none,
            metadataFallbackUrls := [], docUrl := none, description := none })

/-- toGroupItems applied to a possibly absent value. -/
def toGroupItemsO (value : Option Json) (groupKey : String) (rc : Option RepoContext) :
    List MarketplaceGroupItem :=
  match value with
  | none => []
  | some v => toGroupItems v groupKey rc

/-- The Map-based item dedup inside mergeGroupItems: key is the lowercased
item name, first occurrence wins, insertion order preserved. -/
def dedupItemsAux : List MarketplaceGroupItem → List String → List MarketplaceGroupItem
  | [], _ => []
  | i :: rest, seen =>
    let key := lowerStr i.name
    if key ∈ seen then dedupItemsAux rest seen
    else i :: dedupItemsAux rest (key :: seen)

/-- Embedding of mergeGroupItems. -/
def mergeGroupItems (primary secondary : List MarketplaceGroupItem) :
    List MarketplaceGroupItem :=
  dedupItemsAux (primary ++ secondary) []

/-- Embedding of collectGroupValues: the value under the key at top level and
inside a nested manifest object, merged. -/
def collectGroupValues (record : List (String × Json)) (key : String)
    (rc : Option RepoContext) : List MarketplaceGroupItem :=
  let manifest := (jGet record "manifest").bind asRecord
  let primary := toGroupItemsO (jGet record key) key rc
  let secondary := toGroupItemsO (manifest.bind (fun m => jGet m key)) key rc
  mergeGroupItems primary secondary

/-- The six fixed category definitions, in source order. -/
def groupDefinitions : List (String × String) :=
  [("skills", "Skills"), ("agents", "Agents"), ("commands", "Commands"),
   ("tools", "Tools"), ("prompts", "Prompts"), ("workflows", "Workflows")]

/-- Embedding of extractPluginGroups: one group per category with a nonempty
item list. -/
def extractPluginGroups (record : List (String × Json)) (rc : Option RepoContext) :
    List MarketplacePluginGroup :=
  groupDefinitions.filterMap (fun d =>
    match collectGroupValues record d.1 rc with
    | [] => none
    | items => some { name := d.2, key := d.1, items := items })

/-- Searches the candidate keys for the first array-valued field. -/
def firstArrayField (record : List (String × Json)) : List String → List Json
  | [] => []
  | k :: ks =>
    match jGet record k with
    | some (.arr xs) => xs
    | _ => firstArrayField record ks

/-- Embedding of getPluginList: the document itself when it is an array,
otherwise the first array among the plugins, items and extensions fields. -/
def getPluginList (document : Json) : List Json :=
  match document with
  | .arr xs => xs
  | _ =>
    match asRecord document with
    | none => []
    | some record => firstArrayField record ["plugins", "items", "extensions"]

/-- The outcome of normalizing one plugin entry: exactly one of a plugin or
a warning, as the source returns. -/
inductive NormalizeOutcome where
  | plugin (p : MarketplacePlugin)
  | warning (w : String)

/-- Embedding of normalizePlugin. -/
def normalizePlugin (entry : Json) (sourceUrl marketplaceDocumentUrl : String)
    (rc : Option RepoContext) : NormalizeOutcome :=
  match asRecord entry with
  | none => .warning ("Skipped non-object plugin entry from " ++ sourceUrl ++ ".")
  | some record =>
    match getStr record "id" <|> getStr record "slug" <|> getStr record "name" with
    | none => .warning ("Skipped plugin entry without id/name in " ++ sourceUrl ++ ".")
    | some id =>
      let name := (getStr record "name").getD id
      let description := getStr record "description"
      let version :=
        (getStr record "version" <|> getStr record "latestVersion" <|>
          (((jGet record "manifest").bind asRecord).bind
            (fun m => getStr m "version"))).getD "unknown"
      let downloadUrl :=
        getStr record "downloadUrl" <|> getStr record "url" <|>
          (((jGet record "package").bind asRecord).bind (fun p => getStr p "url"))
      .plugin { id := id, name := name, description := description, version := version,
                downloadUrl := downloadUrl, groups := extractPluginGroups record rc,
                sourceUrl := sourceUrl, marketplaceDocumentUrl := marketplaceDocumentUrl,
                raw := record }

/-- The entry loop of normalizeMarketplaceDocument: plugins and warnings are
accumulated in entry order. -/
def normalizeEntriesLoop (entries : List Json) (sourceUrl marketplaceDocumentUrl : String)
    (rc : Option RepoContext) : List MarketplacePlugin × List String :=
  match entries with
  | [] => ([], [])
  | e :: rest =>
    let tailResult := normalizeEntriesLoop rest sourceUrl marketplaceDocumentUrl rc
    match normalizePlugin e sourceUrl marketplaceDocumentUrl rc with
    | .plugin p => (p :: tailResult.1, tailResult.2)
    | .warning w => (tailResult.1, w :: tailResult.2)

/-- Embedding of normalizeMarketplaceDocument: extracts the plugin list, warns
once when it is empty, and normalizes each entry in order; errors stay empty. -/
def normalizeMarketplaceDocument (document : Json) (sourceUrl : String)
    (marketplaceDocumentUrl : String) (rc : Option RepoContext) : MarketplaceFetchResult :=
  let entries := getPluginList document
  let baseWarnings :=
    match entries with
    | [] => ["No plugin entries found in " ++ sourceUrl ++ "."]
    | _ => []
  let looped := normalizeEntriesLoop entries sourceUrl marketplaceDocumentUrl rc
  { plugins := looped.1, warnings := baseWarnings ++ looped.2, errors := [] }

/-- Projects the plugin out of a normalization outcome. -/
def outPlugin : NormalizeOutcome → Option MarketplacePlugin
  | .plugin p => some p
  | .warning _ => none

/-- Projects the warning out of a normalization outcome. -/
def outWarning : NormalizeOutcome → Option String
  | .plugin _ => none
  | .warning w => some w

theorem normalizeEntriesLoop_eq (sourceUrl marketplaceDocumentUrl : String)
    (rc : Option RepoContext) :
    ∀ entries : List Json,
      normalizeEntriesLoop entries sourceUrl marketplaceDocumentUrl rc =
        (entries.filterMap (fun e => outPlugin (normalizePlugin e sourceUrl marketplaceDocumentUrl rc)),
         entries.filterMap (fun e => outWarning (normalizePlugin e sourceUrl marketplaceDocumentUrl rc))) := by
  intro entries
  induction entries with
  | nil => simp [normalizeEntriesLoop]
  | cons e rest ih =>
    cases hne : normalizePlugin e sourceUrl marketplaceDocumentUrl rc with
    | plugin p =>
      simp [normalizeEntriesLoop, hne, ih, List.filterMap_cons, outPlugin, outWarning]
    | warning w =>
      simp [normalizeEntriesLoop, hne, ih, List.filterMap_cons, outPlugin, outWarning]

theorem normalizePlugin_warning_forms (e : Json) (s d : String) (rc : Option RepoContext)
    (w : String) (h : outWarning (normalizePlugin e s d rc) = some w) :
    w = "Skipped non-object plugin entry from " ++ s ++ "." ∨
    w = "Skipped plugin entry without id/name in " ++ s ++ "." := by
  cases hrec : asRecord e with
  | none =>
    left
    simp [normalizePlugin, hrec, outWarning] at h
    exact h.symm
  | some record =>
    cases hid : (getStr record "id" <|> getStr record "slug" <|> getStr record "name") with
    | none =>
      right
      simp [normalizePlugin, hrec, hid, outWarning] at h
      exact h.symm
    | some i =>
      simp [normalizePlugin, hrec, hid, outWarning] at h

/-- C3 counterexample: a document with a present but empty plugins array has
an extracted plugin list with zero entries (so zero valid and zero invalid
entries), yet the normalizer returns one warning instead of the zero warnings
the claim demands for that case. -/
theorem C3_normalize_counterexample :
    getPluginList (Json.obj [("plugins", Json.arr [])]) = [] ∧
    (normalizeMarketplaceDocument (Json.obj [("plugins", Json.arr [])])
        "https://example.com/market" "https://example.com/market" none).plugins = [] ∧
    (normalizeMarketplaceDocument (Json.obj [("plugins", Json.arr [])])
        "https://example.com/market" "https://example.com/market" none).warnings =
      ["No plugin entries found in https://example.com/market."] := by
  exact ⟨rfl, rfl, rfl⟩

/-- C3 amended: the normalizer never throws and returns an empty errors list;
the plugins are exactly the entries of the extracted list that normalize to a
plugin, in entry order; when the extracted list is nonempty the warnings are
exactly one per invalid entry, in entry order; when the extracted list is
empty (absent, malformed, or present but empty) the result is zero plugins
and exactly one warning that no plugin entries were found; every warning
mentions the source URL. -/
theorem C3_normalize (document : Json) (sourceUrl marketplaceDocumentUrl : String)
    (rc : Option RepoContext) :
    (normalizeMarketplaceDocument document sourceUrl marketplaceDocumentUrl rc).errors = [] ∧
    (normalizeMarketplaceDocument document sourceUrl marketplaceDocumentUrl rc).plugins =
      (getPluginList document).filterMap
        (fun e => outPlugin (normalizePlugin e sourceUrl marketplaceDocumentUrl rc)) ∧
    (getPluginList document ≠ [] →
      (normalizeMarketplaceDocument document sourceUrl marketplaceDocumentUrl rc).warnings =
        (getPluginList document).filterMap
          (fun e => outWarning (normalizePlugin e sourceUrl marketplaceDocumentUrl rc))) ∧
    (getPluginList document = [] →
      (normalizeMarketplaceDocument document sourceUrl marketplaceDocumentUrl rc).plugins = [] ∧
      (normalizeMarketplaceDocument document sourceUrl marketplaceDocumentUrl rc).warnings =
        ["No plugin entries found in " ++ sourceUrl ++ "."]) ∧
    (∀ w ∈ (normalizeMarketplaceDocument document sourceUrl marketplaceDocumentUrl rc).warnings,
      ∃ pre post, w = pre ++ sourceUrl ++ post) := by
  have hloop := normalizeEntriesLoop_eq sourceUrl marketplaceDocumentUrl rc (getPluginList document)
  refine ⟨rfl, ?_, ?_, ?_, ?_⟩
  · simp [normalizeMarketplaceDocument, hloop]
  · intro hne
    cases hlist : getPluginList document with
    | nil => exact absurd hlist hne
    | cons e rest =>
      simp only [normalizeMarketplaceDocument, hlist]
      rw [hlist] at hloop
      simp [hloop]
  · intro hnil
    simp [normalizeMarketplaceDocument, hnil, normalizeEntriesLoop]
  · intro w hw
    simp only [normalizeMarketplaceDocument] at hw
    rw [List.mem_append] at hw
    rcases hw with hw | hw
    · cases hlist : getPluginList document with
      | nil =>
        rw [hlist] at hw
        simp at hw
        exact ⟨"No plugin entries found in ", ".", by rw [hw]⟩
      | cons e rest =>
        rw [hlist] at hw
        simp at hw
    · rw [hloop] at hw
      simp only [List.mem_filterMap] at hw
      obtain ⟨e, _, he⟩ := hw
      rcases normalizePlugin_warning_forms e sourceUrl marketplaceDocumentUrl rc w he with h | h
      · exact ⟨"Skipped non-object plugin entry from ", ".", h⟩
      · exact ⟨"Skipped plugin entry without id/name in ", ".", h⟩

/-- C3 witness: a concrete document with one valid and one invalid entry, for
which the nonempty clause of the normalization theorem yields exactly the one
per-invalid-entry warning. -/
theorem C3_normalize_witness :
    getPluginList (Json.arr [Json.obj [("id", Json.str "alpha")], Json.str "bogus"]) ≠ [] ∧
    (normalizeMarketplaceDocument
        (Json.arr [Json.obj [("id", Json.str "alpha")], Json.str "bogus"])
        "https://example.com/m" "https://example.com/m" none).warnings =
      ["Skipped non-object plugin entry from https://example.com/m."] := by
  have hne : getPluginList (Json.arr [Json.obj [("id", Json.str "alpha")], Json.str "bogus"]) ≠ [] :=
    fun h => absurd (congrArg List.length h) (by decide)
  refine ⟨hne, ?_⟩
  have h := (C3_normalize (Json.arr [Json.obj [("id", Json.str "alpha")], Json.str "bogus"])
      "https://example.com/m" "https://example.com/m" none).2.2.1 hne
  rw [h]
  rfl

/-- Embedding of the result-collection loop of fetchAllMarketplaces over the
settled per-marketplace outcomes: fulfilled results contribute their plugins,
warnings and errors, rejected ones append one synthesized error. -/
def aggregateSettled (results : List (Except String MarketplaceFetchResult)) :
    MarketplaceFetchResult :=
  results.foldl
    (fun agg r =>
      match r with
      | .ok v =>
        { plugins := agg.plugins ++ v.plugins, warnings := agg.warnings ++ v.warnings,
          errors := agg.errors ++ v.errors }
      | .error reason =>
        { agg with errors := agg.errors ++ ["Marketplace fetch failed: " ++ reason] })
    { plugins := [], warnings := [], errors := [] }

/-- The dedup key built in fetchAllMarketplaces: id, two colons, sourceUrl. -/
def dedupKey (p : MarketplacePlugin) : String :=
  p.id ++ "::" ++ p.sourceUrl

/-- The Map-based plugin dedup of fetchAllMarketplaces: first occurrence of a
key wins, insertion order preserved. -/
def dedupPlugins : List MarketplacePlugin → List String → List MarketplacePlugin
  | [], _ => []
  | p :: rest, seen =>
    if dedupKey p ∈ seen then dedupPlugins rest seen
    else p :: dedupPlugins rest (dedupKey p :: seen)

/-- Model of the final sort by display name: a stable sort under the supplied
name comparison (the source compares names with localeCompare, modelled here
as the boolean relation argument). -/
def sortPlugins (leB : String → String → Bool) (l : List MarketplacePlugin) :
    List MarketplacePlugin :=
  List.insertionSort (fun p q => leB p.name q.name = true) l

/-- Embedding of the merge step of fetchAllMarketplaces: collect the settled
results, dedup the concatenated plugins by key, and sort by display name. -/
def fetchAllMarketplaces (leB : String → String → Bool)
    (results : List (Except String MarketplaceFetchResult)) : MarketplaceFetchResult :=
  let aggregate := aggregateSettled results
  { aggregate with plugins := sortPlugins leB (dedupPlugins aggregate.plugins []) }

theorem dedupPlugins_mem_spec :
    ∀ (l : List MarketplacePlugin) (seen : List String) (p : MarketplacePlugin),
      p ∈ dedupPlugins l seen →
      dedupKey p ∉ seen ∧
      l.find? (fun q => decide (q.id = p.id ∧ q.sourceUrl = p.sourceUrl)) = some p := by
  intro l
  induction l with
  | nil => intro seen p h; simp [dedupPlugins] at h
  | cons q rest ih =>
    intro seen p h
    by_cases hq : dedupKey q ∈ seen
    · simp only [dedupPlugins, if_pos hq] at h
      obtain ⟨hns, hf⟩ := ih seen p h
      refine ⟨hns, ?_⟩
      rw [find?_cons_eq]
      have hne : ¬ (q.id = p.id ∧ q.sourceUrl = p.sourceUrl) := by
        rintro ⟨h1, h2⟩
        apply hns
        have hk : dedupKey q = dedupKey p := by unfold dedupKey; rw [h1, h2]
        rwa [hk] at hq
      rw [if_neg (by simpa using hne)]
      exact hf
    · simp only [dedupPlugins, if_neg hq] at h
      rcases List.mem_cons.mp h with rfl | hp
      · refine ⟨hq, ?_⟩
        rw [find?_cons_eq, if_pos (by simp)]
      · obtain ⟨hns, hf⟩ := ih _ p hp
        have hkey : dedupKey p ≠ dedupKey q := by
          intro he
          exact hns (by rw [← he]; exact List.mem_cons_self _ _)
        have hnotin : dedupKey p ∉ seen := fun hs => hns (List.mem_cons_of_mem _ hs)
        refine ⟨hnotin, ?_⟩
        rw [find?_cons_eq]
        have hne : ¬ (q.id = p.id ∧ q.sourceUrl = p.sourceUrl) := by
          rintro ⟨h1, h2⟩
          apply hkey
          unfold dedupKey
          rw [h1, h2]
        rw [if_neg (by simpa using hne)]
        exact hf

theorem dedupPlugins_pairwise :
    ∀ (l : List MarketplacePlugin) (seen : List String),
      (dedupPlugins l seen).Pairwise (fun p q => dedupKey p ≠ dedupKey q) := by
  intro l
  induction l with
  | nil => intro seen; simp [dedupPlugins]
  | cons q rest ih =>
    intro seen
    by_cases hq : dedupKey q ∈ seen
    · simp only [dedupPlugins, if_pos hq]
      exact ih seen
    · simp only [dedupPlugins, if_neg hq]
      refine List.Pairwise.cons ?_ (ih _)
      intro p hp
      have hspec := (dedupPlugins_mem_spec rest (dedupKey q :: seen) p hp).1
      intro he
      exact hspec (by rw [← he]; exact List.mem_cons_self _ _)

/-- C4: the aggregator keeps, among the concatenated plugins of all settled
results, exactly the first occurrence of each dedup key; the surviving
plugins are pairwise distinct in (id, sourceUrl), each survivor is the first
occurrence of its (id, sourceUrl) pair, the output is sorted ascending by
display name under the supplied (locale-aware) name comparison, and the
dedup never touches the errors or warnings, so duplicates cause no error. -/
theorem C4_aggregate_dedup_sort (leB : String → String → Bool)
    (results : List (Except String MarketplaceFetchResult))
    (htot : ∀ a b, leB a b = true ∨ leB b a = true)
    (htrans : ∀ a b c, leB a b = true → leB b c = true → leB a c = true) :
    (fetchAllMarketplaces leB results).plugins.Perm
      (dedupPlugins (aggregateSettled results).plugins []) ∧
    List.Pairwise (fun p q => ¬ (p.id = q.id ∧ p.sourceUrl = q.sourceUrl))
      (fetchAllMarketplaces leB results).plugins ∧
    (∀ p ∈ (fetchAllMarketplaces leB results).plugins,
      (aggregateSettled results).plugins.find?
        (fun q => decide (q.id = p.id ∧ q.sourceUrl = p.sourceUrl)) = some p) ∧
    List.Sorted (fun p q => leB p.name q.name = true)
      (fetchAllMarketplaces leB results).plugins ∧
    (fetchAllMarketplaces leB results).errors = (aggregateSettled results).errors ∧
    (fetchAllMarketplaces leB results).warnings = (aggregateSettled results).warnings := by
  haveI instTot : IsTotal MarketplacePlugin (fun p q => leB p.name q.name = true) :=
    ⟨fun a b => htot a.name b.name⟩
  haveI instTrans : IsTrans MarketplacePlugin (fun p q => leB p.name q.name = true) :=
    ⟨fun a b c hab hbc => htrans a.name b.name c.name hab hbc⟩
  have hperm : (fetchAllMarketplaces leB results).plugins.Perm
      (dedupPlugins (aggregateSettled results).plugins []) := by
    simp only [fetchAllMarketplaces, sortPlugins]
    exact List.perm_insertionSort _ _
  have hpwkey : List.Pairwise (fun p q => dedupKey p ≠ dedupKey q)
      (fetchAllMarketplaces leB results).plugins := by
    exact (hperm.pairwise_iff (fun h => Ne.symm h)).2
      (dedupPlugins_pairwise (aggregateSettled results).plugins [])
  refine ⟨hperm, ?_, ?_, ?_, rfl, rfl⟩
  · refine hpwkey.imp ?_
    intro a b hk
    rintro ⟨h1, h2⟩
    apply hk
    unfold dedupKey
    rw [h1, h2]
  · intro p hp
    exact (dedupPlugins_mem_spec (aggregateSettled results).plugins [] p
      (hperm.mem_iff.1 hp)).2
  · simp only [fetchAllMarketplaces, sortPlugins]
    exact List.sorted_insertionSort _ _

/-- A concrete plugin value with the fields the aggregation claims read. -/
def mkPlugin (id name sourceUrl : String) : MarketplacePlugin :=
  { id := id, name := name, description := none, version := "unknown",
    downloadUrl := none, groups := [], sourceUrl := sourceUrl,
    marketplaceDocumentUrl := sourceUrl, raw := [] }

/-- C4 witness: the aggregation theorem applied to a concrete comparison and
a concrete settled-result list containing a duplicated (id, sourceUrl) pair,
showing in particular that the duplicate adds no error. -/
theorem C4_aggregate_dedup_sort_witness :
    (fetchAllMarketplaces (fun _ _ => true)
        [Except.ok ⟨[mkPlugin "a" "A" "s", mkPlugin "a" "A" "s"], [], []⟩]).errors =
      (aggregateSettled
        [Except.ok ⟨[mkPlugin "a" "A" "s", mkPlugin "a" "A" "s"], [], []⟩]).errors :=
  (C4_aggregate_dedup_sort (fun _ _ => true)
    [Except.ok ⟨[mkPlugin "a" "A" "s", mkPlugin "a" "A" "s"], [], []⟩]
    (fun _ _ => Or.inl rfl) (fun _ _ _ _ _ => rfl)).2.2.2.2.1

/-- C10: the dedup key is the plain concatenation id ++ two colons ++
sourceUrl, so the plugins with id a::b, source c and id a, source b::c have
distinct (id, sourceUrl) pairs but equal keys, and the aggregator silently
drops the later one: two plugins enter the merge, only the first survives,
with no error or warning recorded. -/
theorem C10_dedup_key_collision :
    dedupKey (mkPlugin "a::b" "P1" "c") = dedupKey (mkPlugin "a" "P2" "b::c") ∧
    ¬ ((mkPlugin "a::b" "P1" "c").id = (mkPlugin "a" "P2" "b::c").id ∧
       (mkPlugin "a::b" "P1" "c").sourceUrl = (mkPlugin "a" "P2" "b::c").sourceUrl) ∧
    (aggregateSettled
      [Except.ok ⟨[mkPlugin "a::b" "P1" "c", mkPlugin "a" "P2" "b::c"], [], []⟩]).plugins.length
      = 2 ∧
    ((fetchAllMarketplaces (fun a b => a ≤ b)
        [Except.ok ⟨[mkPlugin "a::b" "P1" "c", mkPlugin "a" "P2" "b::c"], [], []⟩]).plugins.map
      (fun p => p.name)) = ["P1"] ∧
    (fetchAllMarketplaces (fun a b => a ≤ b)
        [Except.ok ⟨[mkPlugin "a::b" "P1" "c", mkPlugin "a" "P2" "b::c"], [], []⟩]).errors = [] ∧
    (fetchAllMarketplaces (fun a b => a ≤ b)
        [Except.ok ⟨[mkPlugin "a::b" "P1" "c", mkPlugin "a" "P2" "b::c"], [], []⟩]).warnings = [] := by
  refine ⟨rfl, ?_, rfl, rfl, rfl, rfl⟩
  rintro ⟨h1, _⟩
  exact absurd h1 (by decide)

/-- One cache entry, as stored by src/features/cache.ts. -/
structure CacheEntry (α : Type) where
  data : α
  timestamp : Int
  etag : Option String := none
deriving DecidableEq

/-- The two TTL thresholds of the cache configuration. -/
structure CacheConfig where
  freshTTL : Int
  staleTTL : Int
deriving DecidableEq

/-- The default configuration: five minutes fresh, one hour stale. -/
def defaultCacheConfig : CacheConfig :=
  { freshTTL := 5 * 60 * 1000, staleTTL := 60 * 60 * 1000 }

/-- The mutable state of a MarketplaceCache: the memory map (a JavaScript Map
modelled as an insertion-ordered association list with unique keys) and the
set of keys with a pending background refresh. -/
structure CacheState (α : Type) where
  memoryCache : List (String × CacheEntry α)
  pendingRefreshes : List String
deriving DecidableEq

/-- Lookup in the association-list model of a Map. -/
def mapGet {β : Type} (m : List (String × β)) (k : String) : Option β :=
  (m.find? (fun p => p.1 == k)).map (fun p => p.2)

/-- Map set: replaces the binding in place when the key is present, appends
otherwise, as a JavaScript Map does. -/
def mapSet {β : Type} : List (String × β) → String → β → List (String × β)
  | [], k, v => [(k, v)]
  | (k1, v1) :: rest, k, v =>
    if k1 == k then (k, v) :: rest else (k1, v1) :: mapSet rest k v

/-- Map delete: removes the binding for the key. -/
def mapDelete {β : Type} (m : List (String × β)) (k : String) : List (String × β) :=
  m.filter (fun p => !(p.1 == k))

namespace MarketplaceCache

/-- Embedding of MarketplaceCache.get: absent key gives none; an entry older
than staleTTL is evicted and treated as absent; otherwise the data comes back
with the isFresh flag (age at most freshTTL).  The returned state carries the
possible eviction. -/
def get {α : Type} (cfg : CacheConfig) (now : Int) (key : String) (st : CacheState α) :
    Option (α × Bool) × CacheState α :=
  match mapGet st.memoryCache key with
  | none => (none, st)
  | some entry =>
    if now - entry.timestamp > cfg.staleTTL then
      (none, { st with memoryCache := mapDelete st.memoryCache key })
    else
      (some (entry.data, decide (now - entry.timestamp ≤ cfg.freshTTL)), st)

/-- Embedding of MarketplaceCache.set: stores the data with the current
timestamp (persistence is fire-and-forget and modelled separately). -/
def set {α : Type} (now : Int) (key : String) (data : α) (etag : Option String)
    (st : CacheState α) : CacheState α :=
  { st with
    memoryCache := mapSet st.memoryCache key { data := data, timestamp := now, etag := etag } }

/-- Embedding of refreshInBackground: a no-op when a refresh for the key is
already pending, otherwise the key is marked pending and a fetch is started
(the boolean reports whether a new fetch started). -/
def refreshInBackground {α : Type} (key : String) (st : CacheState α) :
    Bool × CacheState α :=
  if key ∈ st.pendingRefreshes then (false, st)
  else (true, { st with pendingRefreshes := st.pendingRefreshes ++ [key] })

/-- Completion of a pending background refresh: on success the fetched data is
cached, on failure the catch handler swallows the error; the finally handler
always clears the pending marker.  The second component is the settlement of
the background promise chain, which never rejects. -/
def completeRefresh {α : Type} (now : Int) (key : String) (fetchResult : Except String α)
    (st : CacheState α) : CacheState α × Except String Unit :=
  let st1 :=
    match fetchResult with
    | .ok d => set now key d none st
    | .error _ => st
  ({ st1 with pendingRefreshes := st1.pendingRefreshes.filter (fun k => !(k == key)) },
   Except.ok ())

/-- The value getWithRefresh resolves with. -/
structure CachedFetch (α : Type) where
  data : α
  fromCache : Bool
  refreshing : Bool

/-- One synchronous run of getWithRefresh: its outcome (an error models the
call rejecting), the state it leaves, whether the fetcher was awaited
synchronously, and whether a new background refresh was started. -/
structure GetWithRefreshStep (α : Type) where
  outcome : Except String (CachedFetch α)
  state : CacheState α
  calledFetcher : Bool
  startedBackground : Bool

/-- Embedding of getWithRefresh: reads the cache (possibly evicting); with no
cached value or a forced refresh it awaits the fetcher, caching on success,
falling back to the cached value on failure when one exists and re-raising
otherwise; a fresh cached value returns immediately; a stale one returns
immediately and triggers a background refresh. -/
def getWithRefresh {α : Type} (cfg : CacheConfig) (now : Int) (key : String)
    (fetchResult : Except String α) (forceRefresh : Bool) (st : CacheState α) :
    GetWithRefreshStep α :=
  match get cfg now key st, forceRefresh with
  | (none, st1), _ =>
    match fetchResult with
    | .ok d =>
      { outcome := .ok { data := d, fromCache := false, refreshing := false },
        state := set now key d none st1, calledFetcher := true, startedBackground := false }
    | .error e =>
      { outcome := .error e, state := st1, calledFetcher := true, startedBackground := false }
  | (some cd, st1), true =>
    match fetchResult with
    | .ok d =>
      { outcome := .ok { data := d, fromCache := false, refreshing := false },
        state := set now key d none st1, calledFetcher := true, startedBackground := false }
    | .error _ =>
      { outcome := .ok { data := cd.1, fromCache := true, refreshing := false },
        state := st1, calledFetcher := true, startedBackground := false }
  | (some cd, st1), false =>
    if cd.2 then
      { outcome := .ok { data := cd.1, fromCache := true, refreshing := false },
        state := st1, calledFetcher := false, startedBackground := false }
    else
      { outcome := .ok { data := cd.1, fromCache := true, refreshing := true },
        state := (refreshInBackground key st1).2, calledFetcher := false,
        startedBackground := (refreshInBackground key st1).1 }

/-- Repeatedly triggers a background refresh for one key, counting how many
of the triggers actually started a fetch. -/
def triggerTimes {α : Type} (key : String) : Nat → CacheState α → Nat × CacheState α
  | 0, st => (0, st)
  | n + 1, st =>
    ((if (refreshInBackground key st).1 then 1 else 0) +
       (triggerTimes key n (refreshInBackground key st).2).1,
     (triggerTimes key n (refreshInBackground key st).2).2)

/-- Embedding of persistToStorage: the whole memory map is serialized. -/
def persistToStorage {α : Type} (st : CacheState α) : List (String × CacheEntry α) :=
  st.memoryCache

/-- One step of the load loop: keep the persisted entry unless it is already
older than staleTTL. -/
def loadStep {α : Type} (cfg : CacheConfig) (now : Int)
    (m : List (String × CacheEntry α)) (kv : String × CacheEntry α) :
    List (String × CacheEntry α) :=
  if now - kv.2.timestamp ≤ cfg.staleTTL then mapSet m kv.1 kv.2 else m

/-- Embedding of loadFromStorage: entries are inserted in stored order into a
fresh map, dropping those already older than staleTTL. -/
def loadFromStorage {α : Type} (cfg : CacheConfig) (now : Int)
    (stored : List (String × CacheEntry α)) : List (String × CacheEntry α) :=
  stored.foldl (loadStep cfg now) []

end MarketplaceCache

theorem mapGet_cons {β : Type} (k1 : String) (v1 : β) (rest : List (String × β)) (k : String) :
    mapGet ((k1, v1) :: rest) k = if k1 = k then some v1 else mapGet rest k := by
  by_cases h : k1 = k
  · simp [mapGet, find?_cons_eq, h]
  · simp [mapGet, find?_cons_eq, h]

theorem mapGet_mapSet_self {β : Type} (m : List (String × β)) (k : String) (v : β) :
    mapGet (mapSet m k v) k = some v := by
  induction m with
  | nil => simp [mapGet, mapSet, find?_cons_eq]
  | cons kv rest ih =>
    obtain ⟨k1, v1⟩ := kv
    by_cases h : k1 = k
    · simp [mapSet, h, mapGet_cons]
    · simp only [mapSet]
      rw [if_neg (by simp [h])]
      rw [mapGet_cons, if_neg h]
      exact ih

theorem mapGet_mapSet_ne {β : Type} (m : List (String × β)) (k k2 : String) (v : β)
    (h : k2 ≠ k) : mapGet (mapSet m k v) k2 = mapGet m k2 := by
  induction m with
  | nil => simp [mapGet, mapSet, find?_cons_eq, Ne.symm h]
  | cons kv rest ih =>
    obtain ⟨k1, v1⟩ := kv
    by_cases h1 : k1 = k
    · subst h1
      simp only [mapSet]
      rw [if_pos (by simp)]
      rw [mapGet_cons, mapGet_cons]
      simp [Ne.symm h, h]
    · simp only [mapSet]
      rw [if_neg (by simp [h1])]
      rw [mapGet_cons, mapGet_cons, ih]

theorem mapGet_mapDelete_self {β : Type} (m : List (String × β)) (k : String) :
    mapGet (mapDelete m k) k = none := by
  induction m with
  | nil => simp [mapGet, mapDelete]
  | cons kv rest ih =>
    obtain ⟨k1, v1⟩ := kv
    by_cases h : k1 = k
    · subst h
      simp only [mapDelete, List.filter_cons]
      rw [if_neg (by simp)]
      exact ih
    · simp only [mapDelete, List.filter_cons]
      rw [if_pos (by simp [h])]
      rw [mapGet_cons, if_neg h]
      exact ih

theorem mapGet_eq_none_of_not_mem {β : Type} (m : List (String × β)) (k : String)
    (h : k ∉ m.map Prod.fst) : mapGet m k = none := by
  induction m with
  | nil => simp [mapGet]
  | cons kv rest ih =>
    obtain ⟨k1, v1⟩ := kv
    simp only [List.map_cons, List.mem_cons] at h
    push_neg at h
    rw [mapGet_cons, if_neg (Ne.symm h.1)]
    exact ih h.2

/-- C5: for an entry stored at time T under a configuration with
freshTTL F smaller than staleTTL S, a read at T plus F minus one returns the
value fresh; a read strictly between T plus F and T plus S returns it stale;
a read at T plus S plus one returns nothing and removes the entry from the
map; and a read of a missing key returns nothing. -/
theorem C5_cache_read (α : Type) (cfg : CacheConfig) (T : Int) (key : String) (d : α)
    (st : CacheState α) (hFS : cfg.freshTTL < cfg.staleTTL) :
    ((MarketplaceCache.get cfg (T + cfg.freshTTL - 1) key
        (MarketplaceCache.set T key d none st)).1 = some (d, true)) ∧
    (∀ t : Int, T + cfg.freshTTL < t → t < T + cfg.staleTTL →
      (MarketplaceCache.get cfg t key (MarketplaceCache.set T key d none st)).1 =
        some (d, false)) ∧
    ((MarketplaceCache.get cfg (T + cfg.staleTTL + 1) key
        (MarketplaceCache.set T key d none st)).1 = none) ∧
    (mapGet (MarketplaceCache.get cfg (T + cfg.staleTTL + 1) key
        (MarketplaceCache.set T key d none st)).2.memoryCache key = none) ∧
    (∀ (st2 : CacheState α) (k : String) (t : Int), mapGet st2.memoryCache k = none →
      (MarketplaceCache.get cfg t k st2).1 = none) := by
  have hm : mapGet (MarketplaceCache.set T key d none st).memoryCache key =
      some { data := d, timestamp := T, etag := none } := by
    simpa [MarketplaceCache.set] using
      mapGet_mapSet_self st.memoryCache key { data := d, timestamp := T, etag := none }
  refine ⟨?_, ?_, ?_, ?_, ?_⟩
  · simp only [MarketplaceCache.get, hm]
    rw [if_neg (by omega)]
    rw [decide_eq_true (by omega : T + cfg.freshTTL - 1 - T ≤ cfg.freshTTL)]
  · intro t ht1 ht2
    simp only [MarketplaceCache.get, hm]
    rw [if_neg (by omega)]
    rw [decide_eq_false (by omega : ¬ t - T ≤ cfg.freshTTL)]
  · simp only [MarketplaceCache.get, hm]
    rw [if_pos (by omega)]
  · simp only [MarketplaceCache.get, hm]
    rw [if_pos (by omega)]
    exact mapGet_mapDelete_self _ _
  · intro st2 k t h
    simp [MarketplaceCache.get, h]

/-- C5 witness: the read theorem at a concrete configuration, entry and
times. -/
theorem C5_cache_read_witness :
    ((5 : Int) < 10) ∧
    (MarketplaceCache.get ⟨5, 10⟩ (0 + 5 - 1) "k"
      (MarketplaceCache.set 0 "k" (42 : Int) none ⟨[], []⟩)).1 = some (42, true) :=
  ⟨by decide, (C5_cache_read Int ⟨5, 10⟩ 0 "k" 42 ⟨[], []⟩ (by decide)).1⟩

theorem get_of_absent {α : Type} (cfg : CacheConfig) (now : Int) (key : String)
    (st : CacheState α) (hm : mapGet st.memoryCache key = none) :
    MarketplaceCache.get cfg now key st = (none, st) := by
  simp [MarketplaceCache.get, hm]

theorem get_of_expired {α : Type} (cfg : CacheConfig) (now : Int) (key : String)
    (st : CacheState α) (entry : CacheEntry α) (hm : mapGet st.memoryCache key = some entry)
    (hage : now - entry.timestamp > cfg.staleTTL) :
    MarketplaceCache.get cfg now key st =
      (none, { st with memoryCache := mapDelete st.memoryCache key }) := by
  simp [MarketplaceCache.get, hm, hage]

theorem get_of_live {α : Type} (cfg : CacheConfig) (now : Int) (key : String)
    (st : CacheState α) (entry : CacheEntry α) (hm : mapGet st.memoryCache key = some entry)
    (hage : ¬ now - entry.timestamp > cfg.staleTTL) :
    MarketplaceCache.get cfg now key st =
      (some (entry.data, decide (now - entry.timestamp ≤ cfg.freshTTL)), st) := by
  simp [MarketplaceCache.get, hm, hage]

theorem get_pair_eq {α : Type} (cfg : CacheConfig) (now : Int) (key : String)
    (st : CacheState α) (x : α × Bool) (h : (MarketplaceCache.get cfg now key st).1 = some x) :
    MarketplaceCache.get cfg now key st = (some x, st) := by
  cases hm : mapGet st.memoryCache key with
  | none => rw [get_of_absent cfg now key st hm] at h; simp at h
  | some entry =>
    by_cases hage : now - entry.timestamp > cfg.staleTTL
    · rw [get_of_expired cfg now key st entry hm hage] at h
      simp at h
    · rw [get_of_live cfg now key st entry hm hage] at h ⊢
      have h2 : (entry.data, decide (now - entry.timestamp ≤ cfg.freshTTL)) = x :=
        Option.some_inj.mp h
      rw [← h2]

/-- C6: with no forced refresh, a fresh cache hit returns the cached data
with fromCache true and refreshing false, leaves the state unchanged and
never invokes the fetcher; a stale hit returns the cached data immediately
with fromCache true and refreshing true, does not await the fetcher, leaves
the key with a pending background refresh, and starts a new background
refresh whenever none was already in flight. -/
theorem C6_get_with_refresh (α : Type) (cfg : CacheConfig) (now : Int) (key : String)
    (st : CacheState α) (d : α) (fetchResult : Except String α) :
    ((MarketplaceCache.get cfg now key st).1 = some (d, true) →
      MarketplaceCache.getWithRefresh cfg now key fetchResult false st =
        { outcome := .ok { data := d, fromCache := true, refreshing := false },
          state := st, calledFetcher := false, startedBackground := false }) ∧
    ((MarketplaceCache.get cfg now key st).1 = some (d, false) →
      (MarketplaceCache.getWithRefresh cfg now key fetchResult false st).outcome =
        .ok { data := d, fromCache := true, refreshing := true } ∧
      (MarketplaceCache.getWithRefresh cfg now key fetchResult false st).calledFetcher = false ∧
      key ∈ (MarketplaceCache.getWithRefresh cfg now key fetchResult false st).state.pendingRefreshes ∧
      (key ∉ st.pendingRefreshes →
        (MarketplaceCache.getWithRefresh cfg now key fetchResult false st).startedBackground = true)) := by
  constructor
  · intro h
    have hget := get_pair_eq cfg now key st (d, true) h
    simp [MarketplaceCache.getWithRefresh, hget]
  · intro h
    have hget := get_pair_eq cfg now key st (d, false) h
    refine ⟨?_, ?_, ?_, ?_⟩
    · simp [MarketplaceCache.getWithRefresh, hget]
    · simp [MarketplaceCache.getWithRefresh, hget]
    · simp only [MarketplaceCache.getWithRefresh, hget]
      by_cases hp : key ∈ st.pendingRefreshes
      · simp [MarketplaceCache.refreshInBackground, hp]
      · simp [MarketplaceCache.refreshInBackground, hp]
    · intro hp
      simp [MarketplaceCache.getWithRefresh, hget, MarketplaceCache.refreshInBackground, hp]

/-- C6 witness: a fresh concrete hit, run through the theorem. -/
theorem C6_get_with_refresh_witness :
    (MarketplaceCache.get ⟨5, 10⟩ 3 "k"
        (⟨[("k", ⟨42, 0, none⟩)], []⟩ : CacheState Int)).1 = some (42, true) ∧
    MarketplaceCache.getWithRefresh ⟨5, 10⟩ 3 "k" (Except.ok 7) false
        (⟨[("k", ⟨42, 0, none⟩)], []⟩ : CacheState Int) =
      { outcome := .ok { data := 42, fromCache := true, refreshing := false },
        state := ⟨[("k", ⟨42, 0, none⟩)], []⟩, calledFetcher := false,
        startedBackground := false } :=
  ⟨by decide,
   (C6_get_with_refresh Int ⟨5, 10⟩ 3 "k" ⟨[("k", ⟨42, 0, none⟩)], []⟩ 42
     (Except.ok 7)).1 (by decide)⟩

/-- C7 counterexample: with an entry already older than staleTTL and a
failing fetcher, the claim says the cache entry is left unchanged, but the
initial read inside getWithRefresh evicts it: the entry is present before
the call and gone afterwards, and the failure propagates because the read
reported no cached value. -/
theorem C7_fetch_failure_counterexample :
    (mapGet ((⟨[("k", ⟨42, 0, none⟩)], []⟩ : CacheState Int)).memoryCache "k").isSome = true ∧
    (MarketplaceCache.getWithRefresh ⟨5, 10⟩ 11 "k" (Except.error "down") false
        (⟨[("k", ⟨42, 0, none⟩)], []⟩ : CacheState Int)).outcome = Except.error "down" ∧
    mapGet (MarketplaceCache.getWithRefresh ⟨5, 10⟩ 11 "k" (Except.error "down") false
        (⟨[("k", ⟨42, 0, none⟩)], []⟩ : CacheState Int)).state.memoryCache "k" = none := by
  refine ⟨rfl, rfl, rfl⟩

/-- C7 amended: when the synchronous fetch fails, no cache write occurs and
the returned state is exactly the state left by the initial cache read
(which may itself have evicted an entry already older than staleTTL); when
that read produced a cached value (so the fetch was forced), the value is
returned with fromCache true instead of raising; when it produced none, the
fetcher failure is propagated to the caller. -/
theorem C7_fetch_failure (α : Type) (cfg : CacheConfig) (now : Int) (key : String)
    (st : CacheState α) (e : String) (d : α) (fr : Bool) :
    ((MarketplaceCache.get cfg now key st).1 = some (d, fr) →
      MarketplaceCache.getWithRefresh cfg now key (Except.error e) true st =
        { outcome := .ok { data := d, fromCache := true, refreshing := false },
          state := st, calledFetcher := true, startedBackground := false }) ∧
    ((MarketplaceCache.get cfg now key st).1 = none →
      ∀ force, MarketplaceCache.getWithRefresh cfg now key (Except.error e) force st =
        { outcome := .error e, state := (MarketplaceCache.get cfg now key st).2,
          calledFetcher := true, startedBackground := false }) := by
  constructor
  · intro h
    have hget := get_pair_eq cfg now key st (d, fr) h
    simp [MarketplaceCache.getWithRefresh, hget]
  · intro h force
    set st2 := (MarketplaceCache.get cfg now key st).2 with hst2
    have hget : MarketplaceCache.get cfg now key st = (none, st2) := by
      have h2 : MarketplaceCache.get cfg now key st =
          ((MarketplaceCache.get cfg now key st).1, st2) := rfl
      rw [h2, h]
    simp only [MarketplaceCache.getWithRefresh, hget]

/-- C7 witness: a live stale entry, a forced refresh and a failing fetcher,
run through the fallback clause of the amended theorem. -/
theorem C7_fetch_failure_witness :
    (MarketplaceCache.get ⟨5, 10⟩ 7 "k"
        (⟨[("k", ⟨42, 0, none⟩)], []⟩ : CacheState Int)).1 = some (42, false) ∧
    MarketplaceCache.getWithRefresh ⟨5, 10⟩ 7 "k" (Except.error "down") true
        (⟨[("k", ⟨42, 0, none⟩)], []⟩ : CacheState Int) =
      { outcome := .ok { data := 42, fromCache := true, refreshing := false },
        state := ⟨[("k", ⟨42, 0, none⟩)], []⟩, calledFetcher := true,
        startedBackground := false } :=
  ⟨by decide,
   (C7_fetch_failure Int ⟨5, 10⟩ 7 "k" ⟨[("k", ⟨42, 0, none⟩)], []⟩ "down" 42 false).1
     (by decide)⟩

theorem triggerTimes_of_pending {α : Type} (key : String) :
    ∀ (n : Nat) (st : CacheState α), key ∈ st.pendingRefreshes →
      MarketplaceCache.triggerTimes key n st = (0, st) := by
  intro n
  induction n with
  | zero => intro st _; rfl
  | succ n ih =>
    intro st hp
    have hrb : MarketplaceCache.refreshInBackground key st = (false, st) := by
      simp [MarketplaceCache.refreshInBackground, hp]
    simp [MarketplaceCache.triggerTimes, hrb, ih st hp]

/-- C8: a trigger while a refresh for the key is pending is a no-op and
starts no fetch; completion of a pending refresh never rejects and always
clears the pending marker, for success and failure alike, so a trigger after
completion starts a new refresh; and any run of consecutive triggers starts
at most one fetch. -/
theorem C8_background_refresh (α : Type) (now : Int) (key : String) (st : CacheState α)
    (fetchResult : Except String α) (n : Nat) :
    (key ∈ st.pendingRefreshes →
      MarketplaceCache.refreshInBackground key st = (false, st)) ∧
    ((MarketplaceCache.completeRefresh now key fetchResult st).2 = Except.ok () ∧
      key ∉ (MarketplaceCache.completeRefresh now key fetchResult st).1.pendingRefreshes) ∧
    ((MarketplaceCache.refreshInBackground key
        (MarketplaceCache.completeRefresh now key fetchResult st).1).1 = true) ∧
    ((MarketplaceCache.triggerTimes key n st).1 ≤ 1) := by
  have hnotin : key ∉ (MarketplaceCache.completeRefresh now key fetchResult st).1.pendingRefreshes := by
    cases fetchResult with
    | ok d => simp [MarketplaceCache.completeRefresh, MarketplaceCache.set]
    | error e => simp [MarketplaceCache.completeRefresh]
  refine ⟨?_, ⟨?_, hnotin⟩, ?_, ?_⟩
  · intro hp
    simp [MarketplaceCache.refreshInBackground, hp]
  · cases fetchResult with
    | ok d => rfl
    | error e => rfl
  · simp [MarketplaceCache.refreshInBackground, hnotin]
  · induction n with
    | zero => simp [MarketplaceCache.triggerTimes]
    | succ m _ =>
      by_cases hp : key ∈ st.pendingRefreshes
      · have hrb : MarketplaceCache.refreshInBackground key st = (false, st) := by
          simp [MarketplaceCache.refreshInBackground, hp]
        simp [MarketplaceCache.triggerTimes, hrb, triggerTimes_of_pending key m st hp]
      · have hrb : MarketplaceCache.refreshInBackground key st =
            (true, { st with pendingRefreshes := st.pendingRefreshes ++ [key] }) := by
          simp [MarketplaceCache.refreshInBackground, hp]
        have hp2 : key ∈ ({ st with pendingRefreshes := st.pendingRefreshes ++ [key]} :
            CacheState α).pendingRefreshes := by simp
        simp [MarketplaceCache.triggerTimes, hrb, triggerTimes_of_pending key m _ hp2]

/-- C8 witness: the background-refresh theorem at a concrete state with a
pending refresh for the key. -/
theorem C8_background_refresh_witness :
    "k" ∈ (⟨[], ["k"]⟩ : CacheState Int).pendingRefreshes ∧
    MarketplaceCache.refreshInBackground "k" (⟨[], ["k"]⟩ : CacheState Int) =
      (false, ⟨[], ["k"]⟩) :=
  ⟨by decide,
   (C8_background_refresh Int 0 "k" ⟨[], ["k"]⟩ (Except.error "boom") 2).1 (by decide)⟩

theorem loadFoldl_absent {α : Type} (cfg : CacheConfig) (now : Int) (k : String) :
    ∀ (stored acc : List (String × CacheEntry α)), mapGet stored k = none →
      mapGet (stored.foldl (MarketplaceCache.loadStep cfg now) acc) k = mapGet acc k := by
  intro stored
  induction stored with
  | nil => intro acc _; rfl
  | cons kv rest ih =>
    obtain ⟨k1, e1⟩ := kv
    intro acc hm
    rw [mapGet_cons] at hm
    by_cases hkk : k1 = k
    · rw [if_pos hkk] at hm
      simp at hm
    · rw [if_neg hkk] at hm
      rw [List.foldl_cons, ih _ hm]
      unfold MarketplaceCache.loadStep
      by_cases hkeep : now - e1.timestamp ≤ cfg.staleTTL
      · rw [if_pos hkeep, mapGet_mapSet_ne acc k1 k e1 (fun he => hkk he.symm)]
      · rw [if_neg hkeep]

theorem loadFoldl_present {α : Type} (cfg : CacheConfig) (now : Int) (k : String) :
    ∀ (stored acc : List (String × CacheEntry α)) (e : CacheEntry α),
      (stored.map Prod.fst).Nodup → mapGet stored k = some e →
      mapGet (stored.foldl (MarketplaceCache.loadStep cfg now) acc) k =
        if now - e.timestamp ≤ cfg.staleTTL then some e else mapGet acc k := by
  intro stored
  induction stored with
  | nil => intro acc e _ hm; simp [mapGet] at hm
  | cons kv rest ih =>
    obtain ⟨k1, e1⟩ := kv
    intro acc e hnd hm
    simp only [List.map_cons, List.nodup_cons] at hnd
    obtain ⟨hk1, hndrest⟩ := hnd
    rw [mapGet_cons] at hm
    rw [List.foldl_cons]
    by_cases hkk : k1 = k
    · rw [if_pos hkk] at hm
      have he : e1 = e := Option.some_inj.mp hm
      subst he
      subst hkk
      have hrest : mapGet rest k1 = none := mapGet_eq_none_of_not_mem rest k1 hk1
      rw [loadFoldl_absent cfg now k1 rest _ hrest]
      unfold MarketplaceCache.loadStep
      by_cases hkeep : now - e1.timestamp ≤ cfg.staleTTL
      · rw [if_pos hkeep, if_pos hkeep, mapGet_mapSet_self]
      · rw [if_neg hkeep, if_neg hkeep]
    · rw [if_neg hkk] at hm
      rw [ih _ e hndrest hm]
      unfold MarketplaceCache.loadStep
      by_cases hkeep1 : now - e1.timestamp ≤ cfg.staleTTL
      · rw [if_pos hkeep1]
        by_cases hkeep : now - e.timestamp ≤ cfg.staleTTL
        · rw [if_pos hkeep, if_pos hkeep]
        · rw [if_neg hkeep, if_neg hkeep,
            mapGet_mapSet_ne acc k1 k e1 (fun he => hkk he.symm)]
      · rw [if_neg hkeep1]

/-- C9: persisting the whole cache map and reloading it with no time passing
yields an identical readable state for every key, and any persisted entry
already older than staleTTL at load time is dropped and absent from the
reloaded map. -/
theorem C9_persist_reload (α : Type) (cfg : CacheConfig) (now : Int) (st : CacheState α)
    (key : String) (hnd : (st.memoryCache.map Prod.fst).Nodup) :
    ((MarketplaceCache.get cfg now key
        (⟨MarketplaceCache.loadFromStorage cfg now (MarketplaceCache.persistToStorage st), []⟩ :
          CacheState α)).1 =
      (MarketplaceCache.get cfg now key st).1) ∧
    (∀ e : CacheEntry α, mapGet st.memoryCache key = some e →
      now - e.timestamp > cfg.staleTTL →
      mapGet (MarketplaceCache.loadFromStorage cfg now (MarketplaceCache.persistToStorage st))
        key = none) := by
  have hload : ∀ (e : CacheEntry α), mapGet st.memoryCache key = some e →
      mapGet (MarketplaceCache.loadFromStorage cfg now (MarketplaceCache.persistToStorage st)) key =
        if now - e.timestamp ≤ cfg.staleTTL then some e else none :=
    fun e hm => loadFoldl_present cfg now key st.memoryCache [] e hnd hm
  constructor
  · cases hm : mapGet st.memoryCache key with
    | none =>
      have hl : mapGet (MarketplaceCache.loadFromStorage cfg now
          (MarketplaceCache.persistToStorage st)) key = none :=
        loadFoldl_absent cfg now key st.memoryCache [] hm
      rw [get_of_absent cfg now key _ hl, get_of_absent cfg now key st hm]
    | some e =>
      by_cases hkeep : now - e.timestamp ≤ cfg.staleTTL
      · have hl : mapGet (MarketplaceCache.loadFromStorage cfg now
            (MarketplaceCache.persistToStorage st)) key = some e := by
          rw [hload e hm, if_pos hkeep]
        have hage : ¬ now - e.timestamp > cfg.staleTTL := by omega
        rw [get_of_live cfg now key _ e hl hage, get_of_live cfg now key st e hm hage]
      · have hl : mapGet (MarketplaceCache.loadFromStorage cfg now
            (MarketplaceCache.persistToStorage st)) key = none := by
          rw [hload e hm, if_neg hkeep]
        have hage : now - e.timestamp > cfg.staleTTL := by omega
        rw [get_of_absent cfg now key _ hl, get_of_expired cfg now key st e hm hage]
  · intro e hm hage
    rw [hload e hm, if_neg (by omega)]

/-- C9 witness: a concrete map holding one live and one over-stale entry,
whose reload drops exactly the stale one while reads agree. -/
theorem C9_persist_reload_witness :
    ((([("a", ⟨1, 0, none⟩), ("b", ⟨2, -100, none⟩)] :
        List (String × CacheEntry Int)).map Prod.fst).Nodup) ∧
    (MarketplaceCache.get ⟨5, 10⟩ 0 "b"
        (⟨MarketplaceCache.loadFromStorage ⟨5, 10⟩ 0
            (MarketplaceCache.persistToStorage
              (⟨[("a", ⟨1, 0, none⟩), ("b", ⟨2, -100, none⟩)], []⟩ : CacheState Int)), []⟩ :
          CacheState Int)).1 =
      (MarketplaceCache.get ⟨5, 10⟩ 0 "b"
        (⟨[("a", ⟨1, 0, none⟩), ("b", ⟨2, -100, none⟩)], []⟩ : CacheState Int)).1 :=
  ⟨by decide,
   (C9_persist_reload Int ⟨5, 10⟩ 0 ⟨[("a", ⟨1, 0, none⟩), ("b", ⟨2, -100, none⟩)], []⟩ "b"
     (by decide)).1⟩

end AgentPlugins
